import Mathlib

/-!
Verification of the pollen flat-GFA core against its design document.

Embedded components:
* `flatgfa/src/pool.rs` — `Span`, the `Pool` impl for slices and the
  `Store` impl for `Vec<T>` (sections `SlicePool` / `VecStore` below);
* `polbin/src/parse.rs` — `NameMap` and the two-pass GFA `Parser`;
* `flatgfa-py/src/lib.rs` — the binding layer's `SegmentList` /
  `Segment` objects.

Embedding conventions:
* Rust `Vec<T>` and `&[T]` become `List α`; `usize` and `u32` become `Nat`.
* Operations that can panic — out-of-bounds indexing, `Option`/`Result`
  unwrap, `HashMap` indexing with a missing key, and checked-arithmetic
  overflow on `usize` subtraction — return `Option` or `Except Err`, with
  `none` / `.error` marking the panic.
* `usize::try_into::<u32>()` succeeds exactly on values `≤ 2 ^ 32 - 1`.
* The crates `gfaline` and `flatgfa` (the line grammar and the flat store
  builder) are not part of the excerpted source; their definitions below
  are modelled from the design document and are marked as such.
-/

namespace Pollen

/-- Largest value representable in a `u32`; `usize::try_into::<u32>()`
succeeds exactly for values up to this bound. -/
def u32Max : Nat := 2 ^ 32 - 1

/-- A range of indices into a pool (`pool.rs` `Span { start, end }`).
The source field `end` is a Lean keyword and is rendered `stop`. -/
structure Span where
  start : Nat
  stop : Nat
deriving DecidableEq, Repr

/-- Length of a span (`pool.rs` `Span::len`, `(self.end - self.start) as
usize`); every span produced by a store has `start ≤ stop`, where the
`u32` subtraction agrees with truncated `Nat` subtraction. -/
def Span.len (s : Span) : Nat := s.stop - s.start

/-- Emptiness test (`pool.rs` `Span::is_empty`). -/
def Span.isEmpty (s : Span) : Bool := s.start == s.stop

/-- Element access for the `Pool` impl on slices (`pool.rs`
`fn get_id(&self, id: Id) -> &T { &self[id as usize] }`); Rust slice
indexing panics exactly when `id ≥ len`. -/
def SlicePool.get_id {α : Type} (l : List α) (id : Nat) : Option α := l[id]?

/-- Range access for the `Pool` impl on slices (`pool.rs`
`fn get_span(&self, span: Span) -> &[T] { &self[span.range()] }`);
Rust range indexing `&l[a..b]` panics when `a > b` or `b > len`, and
otherwise yields the half-open subslice. -/
def SlicePool.get_span {α : Type} (l : List α) (s : Span) : Option (List α) :=
  if s.start ≤ s.stop ∧ s.stop ≤ l.length then
    some ((l.drop s.start).take (s.stop - s.start))
  else
    none

/-- Size of a slice pool (`pool.rs` `fn count(&self) -> usize`). -/
def SlicePool.count {α : Type} (l : List α) : Nat := l.length

/-- Next id of a slice pool (`pool.rs`
`fn next_id(&self) -> Id { self.count().try_into().expect("size too large") }`). -/
def SlicePool.next_id {α : Type} (l : List α) : Option Nat :=
  if SlicePool.count l ≤ u32Max then some (SlicePool.count l) else none

/-- Single append for the `Store` impl on `Vec<T>` (`pool.rs` `fn add`):
read `next_id`, push, return the id. -/
def VecStore.add {α : Type} (l : List α) (item : α) : Option (Nat × List α) :=
  match SlicePool.next_id l with
  | none => none
  | some id => some (id, l ++ [item])

/-- Iterator append for the `Store` impl on `Vec<T>` (`pool.rs`
`fn add_iter`): record `next_id`, extend, and return the span up to the
new `next_id`. -/
def VecStore.add_iter {α : Type} (l : List α) (iter : List α) : Option (Span × List α) :=
  match SlicePool.next_id l with
  | none => none
  | some s =>
    match SlicePool.next_id (l ++ iter) with
    | none => none
    | some e => some (⟨s, e⟩, l ++ iter)

/-- Slice append for the `Store` impl on `Vec<T>` (`pool.rs`
`fn add_slice`, textually the same as `add_iter` with
`extend_from_slice`). -/
def VecStore.add_slice {α : Type} (l : List α) (slice : List α) : Option (Span × List α) :=
  match SlicePool.next_id l with
  | none => none
  | some s =>
    match SlicePool.next_id (l ++ slice) with
    | none => none
    | some e => some (⟨s, e⟩, l ++ slice)

/-- Helper: a successful `VecStore.add` appends the item and returns the
old count as the id. -/
lemma VecStore.add_eq {α : Type} {l : List α} {x : α} {id : Nat} {l' : List α}
    (hadd : VecStore.add l x = some (id, l')) :
    id = l.length ∧ l' = l ++ [x] := by
  unfold VecStore.add at hadd
  cases hni : SlicePool.next_id l with
  | none => rw [hni] at hadd; exact absurd hadd (by simp)
  | some idv =>
    rw [hni] at hadd
    simp only [Option.some.injEq, Prod.mk.injEq] at hadd
    obtain ⟨hid, hl⟩ := hadd
    simp only [SlicePool.next_id, SlicePool.count] at hni
    split at hni
    · simp only [Option.some.injEq] at hni
      exact ⟨by omega, hl.symm⟩
    · exact absurd hni (by simp)

/-- Helper: a successful `VecStore.add_iter` appends the items and returns
the span from the old count to the new count. -/
lemma VecStore.add_iter_eq {α : Type} {l items : List α} {sp : Span} {l' : List α}
    (hadd : VecStore.add_iter l items = some (sp, l')) :
    sp = ⟨l.length, l.length + items.length⟩ ∧ l' = l ++ items := by
  unfold VecStore.add_iter at hadd
  cases hs : SlicePool.next_id l with
  | none => rw [hs] at hadd; exact absurd hadd (by simp)
  | some sv =>
    rw [hs] at hadd
    cases he : SlicePool.next_id (l ++ items) with
    | none => rw [he] at hadd; exact absurd hadd (by simp)
    | some ev =>
      rw [he] at hadd
      simp only [Option.some.injEq, Prod.mk.injEq] at hadd
      obtain ⟨hsp, hl⟩ := hadd
      simp only [SlicePool.next_id, SlicePool.count] at hs he
      split at hs
      · split at he
        · simp only [Option.some.injEq] at hs he
          refine ⟨?_, hl.symm⟩
          rw [← hsp, ← hs, ← he, List.length_append]
        · exact absurd he (by simp)
      · exact absurd hs (by simp)

/-- Helper: `add_slice` has the same body as `add_iter`. -/
lemma VecStore.add_slice_eq_add_iter {α : Type} (l items : List α) :
    VecStore.add_slice l items = VecStore.add_iter l items := rfl

/-- C4: for a Vec-backed store, `add` returns the pre-append count as the
new id, after which `get_id` of that id yields the item and `count` has
grown by one; `add_iter` and `add_slice` return the span from the
pre-append count to the post-append count, whose `len` is the number of
appended items and whose `get_span` is exactly the appended items;
elements below the returned start are unchanged; ids of successive
appends strictly increase and are never reused. -/
theorem vec_store_append (α : Type) (l : List α) (x : α) (items : List α) :
    (∀ id l', VecStore.add l x = some (id, l') →
      id = SlicePool.count l
      ∧ SlicePool.get_id l' id = some x
      ∧ SlicePool.count l' = SlicePool.count l + 1
      ∧ (∀ j, j < id → SlicePool.get_id l' j = SlicePool.get_id l j)
      ∧ ∀ y id₂ l'', VecStore.add l' y = some (id₂, l'') → id < id₂)
    ∧ (∀ sp l', VecStore.add_iter l items = some (sp, l') →
      sp.start = SlicePool.count l
      ∧ sp.stop = SlicePool.count l'
      ∧ sp.len = items.length
      ∧ SlicePool.get_span l' sp = some items
      ∧ ∀ j, j < sp.start → SlicePool.get_id l' j = SlicePool.get_id l j)
    ∧ (∀ sp l', VecStore.add_slice l items = some (sp, l') →
      sp.start = SlicePool.count l
      ∧ sp.stop = SlicePool.count l'
      ∧ sp.len = items.length
      ∧ SlicePool.get_span l' sp = some items
      ∧ ∀ j, j < sp.start → SlicePool.get_id l' j = SlicePool.get_id l j) := by
  have hiter : ∀ sp l', VecStore.add_iter l items = some (sp, l') →
      sp.start = SlicePool.count l
      ∧ sp.stop = SlicePool.count l'
      ∧ sp.len = items.length
      ∧ SlicePool.get_span l' sp = some items
      ∧ ∀ j, j < sp.start → SlicePool.get_id l' j = SlicePool.get_id l j := by
    intro sp l' hadd
    obtain ⟨hsp, hl⟩ := VecStore.add_iter_eq hadd
    subst hsp; subst hl
    refine ⟨rfl, by simp [SlicePool.count], by simp [Span.len], ?_, ?_⟩
    · have harith : l.length + items.length - l.length = items.length := by omega
      simp only [SlicePool.get_span]
      rw [if_pos ⟨by omega, by simp⟩]
      rw [harith, List.drop_left, List.take_length]
    · intro j hj
      simp only [SlicePool.get_id]
      rw [List.getElem?_append]
      simp only [SlicePool.count] at hj
      simp [hj]
  refine ⟨?_, hiter, ?_⟩
  · intro id l' hadd
    obtain ⟨hid, hl⟩ := VecStore.add_eq hadd
    subst hid; subst hl
    refine ⟨rfl, ?_, by simp [SlicePool.count], ?_, ?_⟩
    · exact List.getElem?_concat_length l x
    · intro j hj
      simp only [SlicePool.get_id]
      rw [List.getElem?_append]
      simp [hj]
    · intro y id₂ l'' hadd₂
      obtain ⟨hid₂, _⟩ := VecStore.add_eq hadd₂
      subst hid₂
      simp [SlicePool.count]
  · intro sp l' hadd
    rw [VecStore.add_slice_eq_add_iter] at hadd
    exact hiter sp l' hadd

/-- C4 witness: concrete instances of the append properties. -/
theorem vec_store_append_witness :
    SlicePool.get_id ([7, 9] : List Nat) 1 = some 9
    ∧ SlicePool.get_span ([7, 9, 1, 2] : List Nat) ⟨2, 4⟩ = some [1, 2] :=
  ⟨((vec_store_append Nat [7] 9 []).1 1 [7, 9] (by decide)).2.1,
   ((vec_store_append Nat [7, 9] 0 [1, 2]).2.1 ⟨2, 4⟩ [7, 9, 1, 2] (by decide)).2.2.2.1⟩

/-- C7 (amended): for the slice pool, `get_id id` yields the element at
position `id` exactly when `id < count` and faults exactly when
`id ≥ count`; `get_span` yields the contiguous subslice of the span's
half-open range whenever `span.start ≤ span.stop ≤ count`, and faults
exactly when `span.stop > count` or `span.start > span.stop` — a
reversed span faults in Rust slice range indexing even when its end is
in bounds, which corrects the claim's "fails only when
`span.end > count()`". -/
theorem slice_pool_access (α : Type) (l : List α) (id : Nat) (s : Span) :
    (∀ h : id < SlicePool.count l, SlicePool.get_id l id = some (l.get ⟨id, h⟩))
    ∧ (SlicePool.get_id l id = none ↔ SlicePool.count l ≤ id)
    ∧ (s.start ≤ s.stop → s.stop ≤ SlicePool.count l →
        ∃ r, SlicePool.get_span l s = some r
          ∧ r.length = s.stop - s.start
          ∧ ∀ j, j < r.length → SlicePool.get_id r j = SlicePool.get_id l (s.start + j))
    ∧ (SlicePool.get_span l s = none ↔ (SlicePool.count l < s.stop ∨ s.stop < s.start)) := by
  refine ⟨?_, ?_, ?_, ?_⟩
  · intro h
    exact List.getElem?_eq_getElem h
  · exact List.getElem?_eq_none_iff
  · intro h1 h2
    simp only [SlicePool.count] at h2
    refine ⟨(l.drop s.start).take (s.stop - s.start), ?_, ?_, ?_⟩
    · simp only [SlicePool.get_span]
      rw [if_pos ⟨h1, h2⟩]
    · simp only [List.length_take, List.length_drop]
      omega
    · intro j hj
      simp only [List.length_take, List.length_drop] at hj
      simp only [SlicePool.get_id]
      rw [List.getElem?_take, List.getElem?_drop]
      simp only [if_pos (by omega : j < s.stop - s.start)]
  · by_cases hc : s.start ≤ s.stop ∧ s.stop ≤ l.length
    · simp only [SlicePool.get_span, if_pos hc, SlicePool.count]
      simp only [reduceCtorEq, false_iff]
      omega
    · simp only [SlicePool.get_span, if_neg hc, SlicePool.count]
      simp only [true_iff]
      omega

/-- C7 counterexample: the claim as stated says `get_span` fails only when
`span.end > count()`, but a reversed span (`start > end`) faults even
though its end is within bounds. -/
theorem slice_pool_get_span_reversed :
    SlicePool.get_span ([0, 1, 2] : List Nat) ⟨2, 1⟩ = none
    ∧ (⟨2, 1⟩ : Span).stop ≤ SlicePool.count ([0, 1, 2] : List Nat) := by
  decide

/-- C7 witness: concrete instance of the amended access properties. -/
theorem slice_pool_access_witness :
    SlicePool.get_id ([10, 20] : List Nat) 1 = some 20 :=
  (slice_pool_access Nat [10, 20] 1 ⟨0, 2⟩).1 (by decide)

/-- C8: for a pool whose count is addressable by a 32-bit id, `next_id`
returns exactly the count; it fails precisely when the pool already holds
more items than a `u32` id can address. -/
theorem slice_pool_next_id (α : Type) (l : List α) :
    (SlicePool.count l ≤ u32Max → SlicePool.next_id l = some (SlicePool.count l))
    ∧ (SlicePool.next_id l = none ↔ u32Max < SlicePool.count l) := by
  constructor
  · intro h
    simp [SlicePool.next_id, h]
  · by_cases h : SlicePool.count l ≤ u32Max
    · simp [SlicePool.next_id, h]
    · simp [SlicePool.next_id, h]
      omega

/-- C8 witness: concrete instance of the `next_id` property. -/
theorem slice_pool_next_id_witness :
    SlicePool.next_id ([3] : List Nat) = some 1 :=
  (slice_pool_next_id Nat [3]).1 (by decide)

/-- Panic and abort conditions of the parser. Rust panics are modelled as
`Except` errors: `indexOutOfBounds` for slice indexing past the end,
`unwrapFailed` for `Option::unwrap` on a malformed line, `underflow` for
checked `usize` subtraction overflow, `keyNotFound` for `HashMap`
indexing with a missing key (surfacing the name), `nonPathDeferred` and
`pathUnreachable` for the two explicit panics in `parse.rs`. -/
inductive Err
  | indexOutOfBounds
  | unwrapFailed
  | underflow
  | keyNotFound (name : Nat)
  | nonPathDeferred
  | pathUnreachable
deriving DecidableEq, Repr

/-- Segment-name resolution table (`parse.rs` `struct NameMap`). The
`HashMap<usize, u32>` field `others` is modelled as an association list
where insertion prepends and lookup takes the first (i.e. most recent)
binding, matching `HashMap` overwrite semantics for the keys present. -/
structure NameMap where
  sequential_max : Nat
  others : List (Nat × Nat)
deriving DecidableEq, Repr

/-- The `Default` derivation for `NameMap`: zero verified prefix, empty
explicit table. -/
def NameMap.default : NameMap := ⟨0, []⟩

/-- Registration of a name (`parse.rs` `NameMap::insert`). The source
computes `name - 1` on a `usize`; for `name = 0` that subtraction
overflows, which is the checked-arithmetic panic (`Err.underflow`). -/
def NameMap.insert (m : NameMap) (name id : Nat) : Except Err NameMap :=
  if name = 0 then .error .underflow
  else if name - 1 = m.sequential_max ∧ name - 1 = id then
    .ok { m with sequential_max := m.sequential_max + 1 }
  else
    .ok { m with others := (name, id) :: m.others }

/-- Lookup of a name (`parse.rs` `NameMap::get`). Within the sequential
prefix the source returns `(name - 1) as u32` — for `name = 0` the
subtraction overflows (checked-arithmetic panic), otherwise the cast
truncates modulo `2 ^ 32`; outside the prefix `self.others[&name]`
panics when the key is absent (`Err.keyNotFound`). -/
def NameMap.get (m : NameMap) (name : Nat) : Except Err Nat :=
  if name ≤ m.sequential_max then
    if name = 0 then .error .underflow
    else .ok ((name - 1) % 2 ^ 32)
  else
    match m.others.lookup name with
    | some id => .ok id
    | none => .error (.keyNotFound name)

/-- A sequence of `insert` calls with explicitly given (name, id) pairs,
in order. -/
def NameMap.insertPairs (m : NameMap) : List (Nat × Nat) → Except Err NameMap
  | [] => .ok m
  | (n, i) :: rest =>
    match m.insert n i with
    | .error e => .error e
    | .ok m' => m'.insertPairs rest

/-- A sequence of `insert` calls with ids assigned in insertion order
starting from `k` (the ids a `Store` hands out to consecutive appends). -/
def NameMap.insertAll (m : NameMap) (k : Nat) : List Nat → Except Err NameMap
  | [] => .ok m
  | n :: rest =>
    match m.insert n k with
    | .error e => .error e
    | .ok m' => m'.insertAll (k + 1) rest

/-- Helper: `insertAll` is `insertPairs` on the names zipped with their
insertion-order ids. -/
lemma NameMap.insertAll_eq_insertPairs :
    ∀ (names : List Nat) (m : NameMap) (k : Nat),
      m.insertAll k names = m.insertPairs (names.zip (List.range' k names.length 1)) := by
  intro names
  induction names with
  | nil => intro m k; rfl
  | cons n rest ih =>
    intro m k
    rw [List.length_cons, List.range'_succ, List.zip_cons_cons]
    unfold NameMap.insertAll NameMap.insertPairs
    cases m.insert n k with
    | error e => rfl
    | ok m' => exact ih m' (k + 1)

/-- Helper: a key found by association-list lookup is a member. -/
lemma lookup_mem {a b : Nat} : ∀ {l : List (Nat × Nat)}, l.lookup a = some b → (a, b) ∈ l := by
  intro l
  induction l with
  | nil => intro h; simp [List.lookup] at h
  | cons q t ih =>
    intro h
    rw [List.lookup] at h
    by_cases hq : a == q.1
    · have ha : a = q.1 := eq_of_beq hq
      simp [hq] at h
      apply List.mem_cons.mpr
      left
      cases q
      simp_all
    · simp [hq] at h
      exact List.mem_cons.mpr (Or.inr (ih h))

/-- Helper: lookup skips a head entry with a different key. -/
lemma lookup_cons_ne {a k v : Nat} {es : List (Nat × Nat)} (h : a ≠ k) :
    List.lookup a ((k, v) :: es) = List.lookup a es := by
  rw [List.lookup]
  simp [beq_false_of_ne h]

/-- Invariant carried across a sequence of inserts: `pairs` is the list of
(name, id) arguments already passed to `insert`, in order. The verified
sequential prefix only covers inserted names, the explicit table only
holds inserted pairs, and every inserted pair is answered correctly. -/
def InsInv (m : NameMap) (pairs : List (Nat × Nat)) : Prop :=
  (∀ n, 1 ≤ n → n ≤ m.sequential_max → (n, n - 1) ∈ pairs)
  ∧ (∀ q ∈ m.others, q ∈ pairs)
  ∧ (∀ q ∈ pairs, m.get q.1 = .ok q.2)

/-- Helper: one `insert` of a fresh positive name with a `u32` id
preserves the insert invariant. -/
lemma NameMap.insert_inv {m m' : NameMap} {pairs : List (Nat × Nat)} {name id : Nat}
    (hInv : InsInv m pairs) (hfresh : ∀ q ∈ pairs, q.1 ≠ name)
    (hpos : 1 ≤ name) (hid : id < 2 ^ 32)
    (hins : m.insert name id = .ok m') :
    InsInv m' (pairs ++ [(name, id)]) := by
  obtain ⟨hseq, hoth, hget⟩ := hInv
  unfold NameMap.insert at hins
  rw [if_neg (by omega : ¬ name = 0)] at hins
  by_cases hcond : name - 1 = m.sequential_max ∧ name - 1 = id
  · rw [if_pos hcond] at hins
    simp only [Except.ok.injEq] at hins
    subst hins
    refine ⟨?_, ?_, ?_⟩
    · intro n h1 h2
      simp only at h2
      rcases Nat.lt_or_ge n (m.sequential_max + 1) with hlt | hge
      · exact List.mem_append_left _ (hseq n h1 (by omega))
      · have hn : n = m.sequential_max + 1 := by omega
        have : (n, n - 1) = (name, id) := by
          have : name = m.sequential_max + 1 := by omega
          simp [hn, this]
          omega
        rw [this]
        exact List.mem_append_right _ (List.mem_singleton.mpr rfl)
    · intro q hq
      exact List.mem_append_left _ (hoth q hq)
    · intro q hq
      rcases List.mem_append.mp hq with hq | hq
      · have hne : q.1 ≠ name := hfresh q hq
        have hgq := hget q hq
        unfold NameMap.get at hgq ⊢
        by_cases h1 : q.1 ≤ m.sequential_max
        · rw [if_pos h1] at hgq
          rw [if_pos (by simp only; omega)]
          exact hgq
        · rw [if_neg h1] at hgq
          have h2 : ¬ q.1 ≤ m.sequential_max + 1 := by
            have : name = m.sequential_max + 1 := by omega
            omega
          rw [if_neg (by simp only; omega)]
          exact hgq
      · have hq : q = (name, id) := List.mem_singleton.mp hq
        subst hq
        unfold NameMap.get
        have hn1 : name = m.sequential_max + 1 := by omega
        rw [if_pos (by simp only; omega), if_neg (by omega)]
        simp only [Except.ok.injEq]
        rw [show name - 1 = id by omega]
        exact Nat.mod_eq_of_lt hid
  · rw [if_neg hcond] at hins
    simp only [Except.ok.injEq] at hins
    subst hins
    refine ⟨?_, ?_, ?_⟩
    · intro n h1 h2
      simp only at h2
      exact List.mem_append_left _ (hseq n h1 h2)
    · intro q hq
      simp only at hq
      rcases List.mem_cons.mp hq with hq | hq
      · subst hq
        exact List.mem_append_right _ (List.mem_singleton.mpr rfl)
      · exact List.mem_append_left _ (hoth q hq)
    · intro q hq
      rcases List.mem_append.mp hq with hq | hq
      · have hne : q.1 ≠ name := hfresh q hq
        have hgq := hget q hq
        unfold NameMap.get at hgq ⊢
        by_cases h1 : q.1 ≤ m.sequential_max
        · rw [if_pos h1] at hgq
          rw [if_pos (by simp only; omega)]
          exact hgq
        · rw [if_neg h1] at hgq
          rw [if_neg (by simp only; omega)]
          simp only
          rw [lookup_cons_ne hne]
          exact hgq
      · have hq : q = (name, id) := List.mem_singleton.mp hq
        subst hq
        unfold NameMap.get
        have hnot : ¬ name ≤ m.sequential_max := by
          intro hle
          have := hseq name hpos hle
          exact (hfresh _ this) rfl
        rw [if_neg (by simp only; omega)]
        simp only
        rw [List.lookup, beq_self_eq_true]

/-- Helper: the insert invariant is preserved by a whole sequence of
inserts of fresh, pairwise-distinct positive names with `u32` ids. -/
lemma NameMap.insertPairs_inv :
    ∀ (ps : List (Nat × Nat)) (m : NameMap) (pairs : List (Nat × Nat)) (m' : NameMap),
      InsInv m pairs →
      (∀ q' ∈ ps, ∀ q ∈ pairs, q.1 ≠ q'.1) →
      (ps.map Prod.fst).Nodup →
      (∀ q ∈ ps, 1 ≤ q.1) →
      (∀ q ∈ ps, q.2 < 2 ^ 32) →
      m.insertPairs ps = .ok m' →
      InsInv m' (pairs ++ ps) := by
  intro ps
  induction ps with
  | nil =>
    intro m pairs m' hInv _ _ _ _ hrun
    simp only [NameMap.insertPairs, Except.ok.injEq] at hrun
    subst hrun
    simpa using hInv
  | cons q rest ih =>
    intro m pairs m' hInv hfresh hnodup hpos hbound hrun
    obtain ⟨n, i⟩ := q
    unfold NameMap.insertPairs at hrun
    cases hins : m.insert n i with
    | error e => rw [hins] at hrun; exact absurd hrun (by simp)
    | ok m₁ =>
      rw [hins] at hrun
      have hInv₁ : InsInv m₁ (pairs ++ [(n, i)]) :=
        NameMap.insert_inv hInv
          (fun q hq => hfresh (n, i) (List.mem_cons_self _ _) q hq)
          (hpos (n, i) (List.mem_cons_self _ _))
          (hbound (n, i) (List.mem_cons_self _ _)) hins
      have hres := ih m₁ (pairs ++ [(n, i)]) m' hInv₁ ?_ ?_ ?_ ?_ hrun
      · simpa [List.append_assoc] using hres
      · intro q' hq' q hq
        rcases List.mem_append.mp hq with hq | hq
        · exact hfresh q' (List.mem_cons_of_mem _ hq') q hq
        · have : q = (n, i) := List.mem_singleton.mp hq
          subst this
          simp only [List.map_cons, List.nodup_cons] at hnodup
          intro heq
          apply hnodup.1
          have heq' : n = q'.1 := heq
          rw [heq']
          exact List.mem_map_of_mem Prod.fst hq'
      · simp only [List.map_cons, List.nodup_cons] at hnodup
        exact hnodup.2
      · intro q hq; exact hpos q (List.mem_cons_of_mem _ hq)
      · intro q hq; exact hbound q (List.mem_cons_of_mem _ hq)

/-- C2: for every sequence of `NameMap.insert(name_i, id_i)` calls with
pairwise-distinct names, every `name_i ≥ 1`, and ids assigned in
insertion order (`id_i = i`, zero-based, hence `u32`-representable,
which forces the sequence length bound), a subsequent
`NameMap.get name_i` returns `id_i` — whether the name is answered by
the verified sequential prefix or by the explicit table. -/
theorem name_map_insert_get (names : List Nat) (m : NameMap)
    (hnodup : names.Nodup) (hpos : ∀ n ∈ names, 1 ≤ n)
    (hlen : names.length ≤ 2 ^ 32)
    (hins : NameMap.insertAll NameMap.default 0 names = .ok m) :
    ∀ i, (h : i < names.length) → m.get names[i] = .ok i := by
  rw [NameMap.insertAll_eq_insertPairs] at hins
  have hzip := NameMap.insertPairs_inv (names.zip (List.range' 0 names.length 1))
      NameMap.default [] m ?_ (by simp) ?_ ?_ ?_ hins
  · intro i h
    have hlen' : (names.zip (List.range' 0 names.length 1)).length = names.length := by
      simp [List.length_zip, List.length_range']
    have hi : i < (names.zip (List.range' 0 names.length 1)).length := by omega
    have hq : (names.zip (List.range' 0 names.length 1))[i] = (names[i], i) := by
      rw [List.getElem_zip]
      congr 1
      simp [List.getElem_range']
    have hmem : (names[i], i) ∈ names.zip (List.range' 0 names.length 1) := by
      rw [← hq]
      exact List.getElem_mem hi
    have := hzip.2.2 (names[i], i) (by simpa using hmem)
    simpa using this
  · refine ⟨?_, ?_, ?_⟩
    · intro n h1 h2
      simp only [NameMap.default] at h2
      omega
    · intro q hq
      simp [NameMap.default] at hq
    · intro q hq
      simp at hq
  · have : (names.zip (List.range' 0 names.length 1)).map Prod.fst = names :=
      List.map_fst_zip names _ (by simp [List.length_range'])
    rw [this]
    exact hnodup
  · intro q hq
    exact hpos q.1 (List.of_mem_zip hq).1
  · intro q hq
    have := (List.of_mem_zip hq).2
    have := List.mem_range'_1.mp this
    omega

/-- C2 witness: inserting names 5 then 1 (ids 0 and 1; both land in the
explicit table) and looking up name 5. -/
theorem name_map_insert_get_witness :
    NameMap.get ⟨0, [(1, 1), (5, 0)]⟩ 5 = .ok 0 :=
  name_map_insert_get [5, 1] ⟨0, [(1, 1), (5, 0)]⟩ (by decide) (by decide)
    (by norm_num) (by rfl) 0 (by decide)

/-- Helper: inserting the names `s+1, s+2, ...` in order onto a purely
sequential map extends the sequential prefix and keeps the table empty. -/
lemma NameMap.insertAll_range' (j : Nat) :
    ∀ s : Nat, NameMap.insertAll ⟨s, []⟩ s (List.range' (s + 1) j 1) = .ok ⟨s + j, []⟩ := by
  induction j with
  | zero => intro s; rfl
  | succ j ih =>
    intro s
    rw [List.range'_succ]
    have hins : NameMap.insert ⟨s, []⟩ (s + 1) s = .ok ⟨s + 1, []⟩ := by
      unfold NameMap.insert
      rw [if_neg (by omega), if_pos (by constructor <;> simp)]
    simp only [NameMap.insertAll, hins]
    rw [ih (s + 1)]
    simp only [Except.ok.injEq, NameMap.mk.injEq]
    exact ⟨by omega, trivial⟩

/-- C6: declaring exactly the names `1..n` in order (insert calls
`(1,0), (2,1), ..., (n,n-1)`) leaves `sequential_max = n` and an empty
explicit table, so every lookup of a declared name is answered by the
sequential fast path (its branch condition `name ≤ sequential_max`
holds) without probing the table. -/
theorem name_map_sequential (n : Nat) (m : NameMap) (hn : n ≤ 2 ^ 32)
    (hins : NameMap.insertAll NameMap.default 0 (List.range' 1 n 1) = .ok m) :
    m.sequential_max = n ∧ m.others = []
    ∧ ∀ k, 1 ≤ k → k ≤ n → k ≤ m.sequential_max ∧ m.get k = .ok (k - 1) := by
  have h0 := NameMap.insertAll_range' n 0
  simp only [Nat.zero_add] at h0
  have hd : NameMap.default = (⟨0, []⟩ : NameMap) := rfl
  rw [hd, h0] at hins
  have hm : m = ⟨n, []⟩ := (Except.ok.inj hins).symm
  subst hm
  refine ⟨rfl, rfl, ?_⟩
  intro k h1 h2
  refine ⟨h2, ?_⟩
  unfold NameMap.get
  rw [if_pos (by simpa using h2), if_neg (by omega)]
  simp only [Except.ok.injEq]
  exact Nat.mod_eq_of_lt (by omega)

/-- C6 witness: names 1, 2, 3 in order; the prefix is 3, the table empty,
and looking up 2 is answered sequentially. -/
theorem name_map_sequential_witness :
    (⟨3, []⟩ : NameMap).sequential_max = 3 ∧ NameMap.get ⟨3, []⟩ 2 = .ok 1 :=
  have h := name_map_sequential 3 ⟨3, []⟩ (by norm_num) (by rfl)
  ⟨h.1, (h.2.2 2 (by omega) (by omega)).2⟩

/-- Weaker invariant for the failure direction: every name answered by
the map (sequentially or via the table) was actually inserted. -/
def Covers (m : NameMap) (names : List Nat) : Prop :=
  (∀ n, 1 ≤ n → n ≤ m.sequential_max → n ∈ names)
  ∧ (∀ q ∈ m.others, q.1 ∈ names)

/-- Helper: one successful insert extends the covered-name set by the
inserted name. -/
lemma NameMap.covers_insert {m m' : NameMap} {names : List Nat} {name id : Nat}
    (hc : Covers m names) (hins : m.insert name id = .ok m') :
    Covers m' (names ++ [name]) := by
  obtain ⟨h1, h2⟩ := hc
  unfold NameMap.insert at hins
  by_cases h0 : name = 0
  · rw [if_pos h0] at hins
    exact absurd hins (by simp)
  · rw [if_neg h0] at hins
    by_cases hcond : name - 1 = m.sequential_max ∧ name - 1 = id
    · rw [if_pos hcond] at hins
      simp only [Except.ok.injEq] at hins
      subst hins
      constructor
      · intro n hn1 hn2
        simp only at hn2
        rcases Nat.lt_or_ge n (m.sequential_max + 1) with hlt | hge
        · exact List.mem_append_left _ (h1 n hn1 (by omega))
        · have : n = name := by omega
          subst this
          exact List.mem_append_right _ (List.mem_singleton.mpr rfl)
      · intro q hq
        exact List.mem_append_left _ (h2 q hq)
    · rw [if_neg hcond] at hins
      simp only [Except.ok.injEq] at hins
      subst hins
      constructor
      · intro n hn1 hn2
        exact List.mem_append_left _ (h1 n hn1 hn2)
      · intro q hq
        simp only at hq
        rcases List.mem_cons.mp hq with hq | hq
        · subst hq
          exact List.mem_append_right _ (List.mem_singleton.mpr rfl)
        · exact List.mem_append_left _ (h2 q hq)

/-- Helper: a whole sequence of inserts extends the covered-name set by
exactly the inserted names. -/
lemma NameMap.covers_insertPairs :
    ∀ (ps : List (Nat × Nat)) (m m' : NameMap) (names : List Nat),
      Covers m names → m.insertPairs ps = .ok m' →
      Covers m' (names ++ ps.map Prod.fst) := by
  intro ps
  induction ps with
  | nil =>
    intro m m' names hc hrun
    simp only [NameMap.insertPairs, Except.ok.injEq] at hrun
    subst hrun
    simpa using hc
  | cons q rest ih =>
    intro m m' names hc hrun
    obtain ⟨n, i⟩ := q
    unfold NameMap.insertPairs at hrun
    cases hins : m.insert n i with
    | error e => rw [hins] at hrun; exact absurd hrun (by simp)
    | ok m₁ =>
      rw [hins] at hrun
      have hc₁ := NameMap.covers_insert hc hins
      have := ih m₁ m' (names ++ [n]) hc₁ hrun
      simpa [List.append_assoc] using this

/-- Helper: a successful `get` only answers covered (i.e. inserted)
names. -/
lemma NameMap.covers_get_ok {m : NameMap} {names : List Nat} {n v : Nat}
    (hc : Covers m names) (hget : m.get n = .ok v) : n ∈ names := by
  obtain ⟨h1, h2⟩ := hc
  unfold NameMap.get at hget
  by_cases hle : n ≤ m.sequential_max
  · rw [if_pos hle] at hget
    by_cases h0 : n = 0
    · rw [if_pos h0] at hget
      exact absurd hget (by simp)
    · exact h1 n (by omega) hle
  · rw [if_neg hle] at hget
    cases hlk : m.others.lookup n with
    | none => rw [hlk] at hget; exact absurd hget (by simp)
    | some id =>
      rw [hlk] at hget
      exact h2 (n, id) (lookup_mem hlk)

/-- Helper: a name that was never passed to `insert` is never answered
with an id: `get` fails on it. -/
lemma NameMap.get_fails_of_not_inserted {ps : List (Nat × Nat)} {m : NameMap} {n : Nat}
    (hrun : NameMap.insertPairs NameMap.default ps = .ok m)
    (hnot : n ∉ ps.map Prod.fst) :
    ∃ e, m.get n = .error e := by
  have hc0 : Covers NameMap.default [] := by
    constructor
    · intro k hk1 hk2
      simp only [NameMap.default] at hk2
      omega
    · intro q hq
      simp [NameMap.default] at hq
  have hc := NameMap.covers_insertPairs ps NameMap.default m [] hc0 hrun
  cases hget : m.get n with
  | error e => exact ⟨e, rfl⟩
  | ok v =>
    have := NameMap.covers_get_ok hc hget
    rw [List.nil_append] at this
    exact absurd this hnot

/-- Orientation of a handle (`flatgfa` crate). Modelled from the spec:
a segment is read in one of two strands, `+` → Forward, `-` → Backward. -/
inductive Orientation
  | forward
  | backward
deriving DecidableEq, Repr

/-- Kind tag of one input line (`flatgfa` crate `LineKind`). Modelled from
the spec: one entry per original input line recording Header, Segment,
Link or Path. -/
inductive LineKind
  | header
  | segment
  | link
  | path
deriving DecidableEq, Repr

/-- Modelled from the spec: `Handle` — an oriented reference to a
segment, (Segment Id, Orientation); the `flatgfa` crate is not under
the excerpted source. -/
structure Handle where
  seg : Nat
  orient : Orientation
deriving DecidableEq, Repr

/-- Modelled from the spec: `Handle::new` packs a segment id and an
orientation. -/
def Handle.new (seg : Nat) (orient : Orientation) : Handle := ⟨seg, orient⟩

/-- Modelled from the spec: `gfaline::Segment` — an external integer
name, the sequence text and the trailing tag text of an `S` line. -/
structure GSeg where
  name : Nat
  seq : List Char
  data : List Char
deriving DecidableEq, Repr

/-- Modelled from the spec: `gfaline::Link` — from-name, from-orientation,
to-name, to-orientation and the overlap field of an `L` line, with the
segment names still unresolved. -/
structure GLink where
  from_seg : Nat
  from_orient : Orientation
  to_seg : Nat
  to_orient : Orientation
  overlap : List Char
deriving DecidableEq, Repr

/-- Modelled from the spec: `gfaline::Path` — name, the raw
(still unparsed) step-list text and the comma-split overlap list of a
`P` line. -/
structure GPath where
  name : List Char
  steps : List Char
  overlaps : List (List Char)
deriving DecidableEq, Repr

/-- Modelled from the spec: `gfaline::Line`, the structural parse of one
GFA line. -/
inductive Line
  | header (data : List Char)
  | segment (seg : GSeg)
  | link (l : GLink)
  | path (p : GPath)
deriving DecidableEq, Repr

/-- Split a character list on a separator; like Rust `str::split`, an
empty input yields one empty field. -/
def splitOnChar (sep : Char) : List Char → List (List Char)
  | [] => [[]]
  | c :: rest =>
    let r := splitOnChar sep rest
    if c = sep then [] :: r
    else
      match r with
      | [] => [[c]]
      | f :: rs => (c :: f) :: rs

/-- Rejoin fields with tab separators (used for the free-form tails of
`H` and `S` lines). -/
def joinTabs : List (List Char) → List Char
  | [] => []
  | [x] => x
  | x :: xs => x ++ '\t' :: joinTabs xs

/-- Accumulate decimal digits; any non-digit character fails. -/
def digitsVal : List Char → Nat → Option Nat
  | [], acc => some acc
  | c :: rest, acc =>
    if '0' ≤ c ∧ c ≤ '9' then digitsVal rest (acc * 10 + (c.toNat - 48))
    else none

/-- Parse a non-empty all-digit field as a natural number. -/
def parseNat? : List Char → Option Nat
  | [] => none
  | c :: rest => digitsVal (c :: rest) 0

/-- Parse a single-character orientation field. -/
def parseOrient? (s : List Char) : Option Orientation :=
  if s = ['+'] then some .forward
  else if s = ['-'] then some .backward
  else none

/-- Modelled from the spec: `gfaline::parse_line`, the structural parse of
one tab-delimited GFA line. `H` captures the rest verbatim, `S` takes an
integer name, a sequence and optional tags, `L` takes name/orientation
pairs and an overlap, `P` keeps the step text raw and comma-splits the
overlap field. Anything else is a malformed line (`none`). -/
def gfaline.parse_line (line : List Char) : Option Line :=
  match splitOnChar '\t' line with
  | ['H'] :: rest => some (.header (joinTabs rest))
  | ['S'] :: name :: seq :: rest =>
    match parseNat? name with
    | none => none
    | some n => some (.segment ⟨n, seq, joinTabs rest⟩)
  | [['L'], a, ao, b, bo, ov] =>
    match parseNat? a, parseOrient? ao, parseNat? b, parseOrient? bo with
    | some an, some aor, some bn, some bor => some (.link ⟨an, aor, bn, bor, ov⟩)
    | _, _, _, _ => none
  | [['P'], name, steps, overlaps] => some (.path ⟨name, steps, splitOnChar ',' overlaps⟩)
  | _ => none

/-- Parse one path step, `<digits><+ or ->`; the boolean is true for `+`
(forward). -/
def parseStep? (s : List Char) : Option (Nat × Bool) :=
  match s.reverse with
  | [] => none
  | o :: rest =>
    match parseNat? rest.reverse with
    | none => none
    | some n =>
      if o = '+' then some (n, true)
      else if o = '-' then some (n, false)
      else none

/-- Parse every step field of a comma-split step list; any malformed step
fails the whole list. -/
def parseStepList : List (List Char) → Option (List (Nat × Bool))
  | [] => some []
  | s :: rest =>
    match parseStep? s, parseStepList rest with
    | some q, some qs => some (q :: qs)
    | _, _ => none

/-- Modelled from the spec: `gfaline::StepsParser` — the comma-separated
step list of a path, each step a segment name with an orientation
suffix. -/
def parseSteps? (s : List Char) : Option (List (Nat × Bool)) :=
  parseStepList (splitOnChar ',' s)

/-- Modelled from the spec: a segment record of the flat view — external
name, a span into the sequence-byte pool and a span into the tag-byte
pool. -/
structure SegRec where
  name : Nat
  seq : Span
  data : Span
deriving DecidableEq, Repr

/-- Modelled from the spec: a link record — two handles plus a span into
the overlap-byte pool. The source fields `from` and `to` are Lean
keywords and are rendered `fromH` / `toH`. -/
structure LinkRec where
  fromH : Handle
  toH : Handle
  overlap : Span
deriving DecidableEq, Repr

/-- Modelled from the spec: a path record — external name, a span of
handles in the shared step pool and a parallel span of overlap bytes. -/
structure PathRec where
  name : List Char
  steps : Span
  overlaps : Span
deriving DecidableEq, Repr

/-- Modelled from the spec: `FlatGFAStore`, the construction-time
aggregate of per-kind growable pools plus the line-order table
(`flatgfa` crate, not under the excerpted source). Appends go at the end
of the relevant pool and return the pre-append count as the new id. -/
structure FlatGFAStore where
  headers : List (List Char)
  segs : List SegRec
  seq_data : List Char
  tag_data : List Char
  links : List LinkRec
  overlap_data : List Char
  paths : List PathRec
  steps : List Handle
  line_order : List LineKind
deriving DecidableEq, Repr

/-- The `Default` derivation for `FlatGFAStore`: all pools empty. -/
def FlatGFAStore.default : FlatGFAStore := ⟨[], [], [], [], [], [], [], [], []⟩

/-- Modelled from the spec: `record_line(kind)` appends one entry to the
line-order table, called once per input line. -/
def FlatGFAStore.record_line (f : FlatGFAStore) (k : LineKind) : FlatGFAStore :=
  { f with line_order := f.line_order ++ [k] }

/-- Modelled from the spec: `add_header(bytes)` captures the header data
and returns its id. -/
def FlatGFAStore.add_header (f : FlatGFAStore) (data : List Char) : Nat × FlatGFAStore :=
  (f.headers.length, { f with headers := f.headers ++ [data] })

/-- Modelled from the spec: `add_seg(name, sequence, tags)` copies the
sequence and tag bytes into the shared byte pools and appends a segment
record, returning the new segment id (the pre-append count). -/
def FlatGFAStore.add_seg (f : FlatGFAStore) (name : Nat) (seq data : List Char) :
    Nat × FlatGFAStore :=
  (f.segs.length,
   { f with
       seq_data := f.seq_data ++ seq
       tag_data := f.tag_data ++ data
       segs := f.segs ++
         [⟨name, ⟨f.seq_data.length, f.seq_data.length + seq.length⟩,
           ⟨f.tag_data.length, f.tag_data.length + data.length⟩⟩] })

/-- Modelled from the spec: `add_link(from, to, overlap)` copies the
overlap bytes into the shared pool and appends a link record, returning
the new link id. -/
def FlatGFAStore.add_link (f : FlatGFAStore) (fromH toH : Handle) (overlap : List Char) :
    Nat × FlatGFAStore :=
  (f.links.length,
   { f with
       overlap_data := f.overlap_data ++ overlap
       links := f.links ++
         [⟨fromH, toH, ⟨f.overlap_data.length, f.overlap_data.length + overlap.length⟩⟩] })

/-- Modelled from the spec: `add_path(name, steps, overlaps)` consumes the
step iterator eagerly into the shared handle pool and appends a path
record whose step span covers exactly the produced handles. -/
def FlatGFAStore.add_path (f : FlatGFAStore) (name : List Char) (steps : List Handle)
    (overlaps : List (List Char)) : Nat × FlatGFAStore :=
  (f.paths.length,
   { f with
       steps := f.steps ++ steps
       overlap_data := f.overlap_data ++ overlaps.flatten
       paths := f.paths ++
         [⟨name, ⟨f.steps.length, f.steps.length + steps.length⟩,
           ⟨f.overlap_data.length, f.overlap_data.length + overlaps.flatten.length⟩⟩] })

/-- The parser state (`parse.rs` `struct Parser`): the flat representation
being built plus the name resolution table. -/
structure Parser where
  flat : FlatGFAStore
  seg_ids : NameMap
deriving DecidableEq, Repr

/-- The `Default` derivation for `Parser`. -/
def Parser.default : Parser := ⟨FlatGFAStore.default, NameMap.default⟩

/-- Buffered not-yet-added structures (`parse.rs` `struct Deferred`): raw
links and raw (unparsed) path lines. -/
structure Deferred where
  links : List GLink
  paths : List (List Char)
deriving DecidableEq, Repr

/-- The initial (empty) deferred buffer. -/
def Deferred.default : Deferred := ⟨[], []⟩

/-- One line of the scan (`parse.rs` `Parser::parse_line`). The source
reads `line.as_bytes()[0]` with no length guard — an empty line is an
out-of-bounds panic. A `P` first byte records a Path line-order entry
and buffers the raw line; otherwise the line is structurally parsed
(`unwrap` panics on a malformed line), headers and segments are added
immediately (registering the segment name), links are buffered, and a
structurally parsed path is `unreachable!`. -/
def Parser.parse_line (p : Parser) (d : Deferred) (line : List Char) :
    Except Err (Parser × Deferred) :=
  match line with
  | [] => .error .indexOutOfBounds
  | c :: _ =>
    if c = 'P' then
      .ok ({ p with flat := p.flat.record_line .path },
           { d with paths := d.paths ++ [line] })
    else
      match gfaline.parse_line line with
      | none => .error .unwrapFailed
      | some (.header data) =>
        .ok ({ p with flat := ((p.flat.record_line .header).add_header data).2 }, d)
      | some (.segment seg) =>
        let flat₁ := p.flat.record_line .segment
        let res := flat₁.add_seg seg.name seg.seq seg.data
        match p.seg_ids.insert seg.name res.1 with
        | .error e => .error e
        | .ok ids => .ok (⟨res.2, ids⟩, d)
      | some (.link l) =>
        .ok ({ p with flat := p.flat.record_line .link },
             { d with links := d.links ++ [l] })
      | some (.path _) => .error .pathUnreachable

/-- The scan loop of `parse.rs` `Parser::parse`: fold `parse_line` over
the input lines. -/
def Parser.scan (p : Parser) (d : Deferred) : List (List Char) → Except Err (Parser × Deferred)
  | [] => .ok (p, d)
  | line :: rest =>
    match Parser.parse_line p d line with
    | .error e => .error e
    | .ok (p', d') => Parser.scan p' d' rest

/-- Resolution of one deferred link (`parse.rs` `Parser::add_link`): look
up both endpoint names (each lookup can panic on an undefined name) and
add the link with oriented handles. -/
def Parser.add_link (p : Parser) (l : GLink) : Except Err Parser :=
  match p.seg_ids.get l.from_seg with
  | .error e => .error e
  | .ok fid =>
    match p.seg_ids.get l.to_seg with
    | .error e => .error e
    | .ok tid =>
      .ok { p with
              flat := (p.flat.add_link (Handle.new fid l.from_orient)
                        (Handle.new tid l.to_orient) l.overlap).2 }

/-- Resolution of a parsed step list through the name table, producing
oriented handles (`parse.rs` `Parser::add_path` closure over
`StepsParser`; `dir = true` is forward). -/
def Parser.resolveSteps (ids : NameMap) : List (Nat × Bool) → Except Err (List Handle)
  | [] => .ok []
  | (n, dir) :: rest =>
    match ids.get n with
    | .error e => .error e
    | .ok id =>
      match Parser.resolveSteps ids rest with
      | .error e => .error e
      | .ok hs =>
        .ok (Handle.new id (if dir then .forward else .backward) :: hs)

/-- Resolution of one deferred path line (`parse.rs` `Parser::add_path`):
parse the buffered step text, resolve every step name, and add the
path. -/
def Parser.add_path (p : Parser) (gp : GPath) : Except Err Parser :=
  match parseSteps? gp.steps with
  | none => .error .unwrapFailed
  | some st =>
    match Parser.resolveSteps p.seg_ids st with
    | .error e => .error e
    | .ok handles =>
      .ok { p with flat := (p.flat.add_path gp.name handles gp.overlaps).2 }

/-- The deferred-link unwind loop of `parse.rs` `Parser::finish`. -/
def Parser.addLinks (p : Parser) : List GLink → Except Err Parser
  | [] => .ok p
  | l :: rest =>
    match Parser.add_link p l with
    | .error e => .error e
    | .ok p' => Parser.addLinks p' rest

/-- The deferred-path unwind loop of `parse.rs` `Parser::finish`: each
buffered line is re-parsed (`unwrap` panics on a malformed line) and
must be a path (`panic!("non-path line deferred")` otherwise). -/
def Parser.addPaths (p : Parser) : List (List Char) → Except Err Parser
  | [] => .ok p
  | line :: rest =>
    match gfaline.parse_line line with
    | none => .error .unwrapFailed
    | some (.path gp) =>
      match Parser.add_path p gp with
      | .error e => .error e
      | .ok p' => Parser.addPaths p' rest
    | some _ => .error .nonPathDeferred

/-- Finalization (`parse.rs` `Parser::finish`): unwind the deferred links,
then the deferred path lines, and return the flat representation. -/
def Parser.finish (p : Parser) (d : Deferred) : Except Err FlatGFAStore :=
  match Parser.addLinks p d.links with
  | .error e => .error e
  | .ok p₁ =>
    match Parser.addPaths p₁ d.paths with
    | .error e => .error e
    | .ok p₂ => .ok p₂.flat

/-- Whole-input parse (`parse.rs` `Parser::parse`): scan every line from a
default state, then finish. -/
def Parser.parse (lines : List (List Char)) : Except Err FlatGFAStore :=
  match Parser.scan Parser.default Deferred.default lines with
  | .error e => .error e
  | .ok (p, d) => Parser.finish p d

/-- The line-order kind the scan records for one input line, mirroring
the branch structure of `Parser::parse_line`: a `P` first byte is a Path
entry before any structural parsing; otherwise the structural parse
decides, and a line the scan cannot handle (empty, malformed, or a
structurally parsed path) has no kind. -/
def lineKindOf (line : List Char) : Option LineKind :=
  match line with
  | [] => none
  | c :: _ =>
    if c = 'P' then some .path
    else
      match gfaline.parse_line line with
      | none => none
      | some (.header _) => some .header
      | some (.segment _) => some .segment
      | some (.link _) => some .link
      | some (.path _) => none

/-- The line-order kinds of a whole input, in order; fails if any line
has none. -/
def lineKinds : List (List Char) → Option (List LineKind)
  | [] => some []
  | line :: rest =>
    match lineKindOf line, lineKinds rest with
    | some k, some ks => some (k :: ks)
    | _, _ => none

/-- The segment record a line contributes during the scan (mirroring the
scan's branching: `P`-first-byte lines are never structurally parsed). -/
def segRecord? (line : List Char) : Option GSeg :=
  match line with
  | [] => none
  | c :: _ =>
    if c = 'P' then none
    else
      match gfaline.parse_line line with
      | some (.segment s) => some s
      | _ => none

/-- All segment records of an input, in declaration order. -/
def segRecords (lines : List (List Char)) : List GSeg := lines.filterMap segRecord?

/-- The raw link a line contributes to the deferred buffer. -/
def linkRecord? (line : List Char) : Option GLink :=
  match line with
  | [] => none
  | c :: _ =>
    if c = 'P' then none
    else
      match gfaline.parse_line line with
      | some (.link l) => some l
      | _ => none

/-- All raw links of an input, in original order. -/
def linkRecords (lines : List (List Char)) : List GLink := lines.filterMap linkRecord?

/-- The raw path line a line contributes to the deferred buffer (any line
whose first byte is `P`). -/
def pathLine? (line : List Char) : Option (List Char) :=
  match line with
  | [] => none
  | c :: _ => if c = 'P' then some line else none

/-- All buffered path lines of an input, in original order. -/
def pathLines (lines : List (List Char)) : List (List Char) := lines.filterMap pathLine?

/-- The external names declared by the segment lines of an input. -/
def declaredNames (lines : List (List Char)) : List Nat := (segRecords lines).map GSeg.name

/-- The `insert` calls the scan performs: each segment record is
registered against the id the segment pool assigns it (consecutive ids
from `k`). -/
def NameMap.insertSegs (m : NameMap) (k : Nat) : List GSeg → Except Err NameMap
  | [] => .ok m
  | s :: rest =>
    match m.insert s.name k with
    | .error e => .error e
    | .ok m' => NameMap.insertSegs m' (k + 1) rest

/-- The expected resolution of the deferred links, in original order:
each raw link's two names are looked up in the final name table and
oriented handles are built, with overlap bytes allocated consecutively
from offset `off`. -/
def resolveLinks (nm : NameMap) : Nat → List GLink → Except Err (List LinkRec)
  | _, [] => .ok []
  | off, l :: rest =>
    match nm.get l.from_seg with
    | .error e => .error e
    | .ok f =>
      match nm.get l.to_seg with
      | .error e => .error e
      | .ok t =>
        match resolveLinks nm (off + l.overlap.length) rest with
        | .error e => .error e
        | .ok rs =>
          .ok (⟨Handle.new f l.from_orient, Handle.new t l.to_orient,
                ⟨off, off + l.overlap.length⟩⟩ :: rs)

/-- Helper: `filterMap` over a cons, phrased with `Option.toList` so both
branches share one shape. -/
lemma filterMap_cons_toList {α β : Type} (f : α → Option β) (a : α) (l : List α) :
    List.filterMap f (a :: l) = (f a).toList ++ List.filterMap f l := by
  cases h : f a <;> simp [List.filterMap_cons, h]

/-- Helper: everything one successful `parse_line` step does to the
parser state and the deferred buffers. -/
lemma Parser.parse_line_spec {p : Parser} {d : Deferred} {line : List Char}
    {p₁ : Parser} {d₁ : Deferred}
    (h : Parser.parse_line p d line = .ok (p₁, d₁)) :
    (∃ k, lineKindOf line = some k ∧ p₁.flat.line_order = p.flat.line_order ++ [k])
    ∧ d₁.links = d.links ++ (linkRecord? line).toList
    ∧ d₁.paths = d.paths ++ (pathLine? line).toList
    ∧ p₁.flat.links = p.flat.links
    ∧ p₁.flat.overlap_data = p.flat.overlap_data
    ∧ (match segRecord? line with
       | none => p₁.seg_ids = p.seg_ids ∧ p₁.flat.segs.length = p.flat.segs.length
       | some s => p.seg_ids.insert s.name p.flat.segs.length = .ok p₁.seg_ids
                   ∧ p₁.flat.segs.length = p.flat.segs.length + 1) := by
  cases line with
  | nil => exact absurd h (by simp [Parser.parse_line])
  | cons c tl =>
    by_cases hc : c = 'P'
    · subst hc
      rw [show Parser.parse_line p d ('P' :: tl)
            = .ok ({ p with flat := p.flat.record_line .path },
                   { d with paths := d.paths ++ ['P' :: tl] }) from rfl] at h
      simp only [Except.ok.injEq, Prod.mk.injEq] at h
      obtain ⟨hp, hd⟩ := h
      subst hp; subst hd
      refine ⟨⟨.path, by simp [lineKindOf], by simp [FlatGFAStore.record_line]⟩,
        by simp [linkRecord?], by simp [pathLine?], rfl, rfl, ?_⟩
      simp [segRecord?, FlatGFAStore.record_line]
    · cases hg : gfaline.parse_line (c :: tl) with
      | none =>
        rw [Parser.parse_line, if_neg hc, hg] at h
        exact absurd h (by simp)
      | some ln =>
        cases ln with
        | header data =>
          rw [Parser.parse_line, if_neg hc, hg] at h
          simp only [Except.ok.injEq, Prod.mk.injEq] at h
          obtain ⟨hp, hd⟩ := h
          subst hp; subst hd
          refine ⟨⟨.header, by simp [lineKindOf, hc, hg], ?_⟩,
            by simp [linkRecord?, hc, hg], by simp [pathLine?, hc], rfl, rfl, ?_⟩
          · simp [FlatGFAStore.add_header, FlatGFAStore.record_line]
          · simp [segRecord?, hc, hg, FlatGFAStore.add_header, FlatGFAStore.record_line]
        | segment seg =>
          rw [Parser.parse_line, if_neg hc, hg] at h
          simp only at h
          cases hins : p.seg_ids.insert seg.name
              ((p.flat.record_line .segment).add_seg seg.name seg.seq seg.data).1 with
          | error e => rw [hins] at h; exact absurd h (by simp)
          | ok ids =>
            rw [hins] at h
            simp only [Except.ok.injEq, Prod.mk.injEq] at h
            obtain ⟨hp, hd⟩ := h
            subst hp; subst hd
            refine ⟨⟨.segment, by simp [lineKindOf, hc, hg], ?_⟩,
              by simp [linkRecord?, hc, hg], by simp [pathLine?, hc], ?_, ?_, ?_⟩
            · simp [FlatGFAStore.add_seg, FlatGFAStore.record_line]
            · simp [FlatGFAStore.add_seg, FlatGFAStore.record_line]
            · simp [FlatGFAStore.add_seg, FlatGFAStore.record_line]
            · simp only [segRecord?, if_neg hc, hg]
              exact ⟨hins, by simp [FlatGFAStore.add_seg, FlatGFAStore.record_line]⟩
        | link l =>
          rw [Parser.parse_line, if_neg hc, hg] at h
          simp only [Except.ok.injEq, Prod.mk.injEq] at h
          obtain ⟨hp, hd⟩ := h
          subst hp; subst hd
          refine ⟨⟨.link, by simp [lineKindOf, hc, hg], by simp [FlatGFAStore.record_line]⟩,
            by simp [linkRecord?, hc, hg], by simp [pathLine?, hc], rfl, rfl, ?_⟩
          simp [segRecord?, hc, hg, FlatGFAStore.record_line]
        | path gp =>
          rw [Parser.parse_line, if_neg hc, hg] at h
          exact absurd h (by simp)

/-- Helper: everything the scan pass does. A successful scan records one
line-order entry per line in input order, buffers exactly the raw links
and raw path lines in input order, adds no links, and registers each
declared segment name against its consecutively assigned segment id. -/
lemma Parser.scan_spec :
    ∀ (lines : List (List Char)) (p : Parser) (d : Deferred) (p' : Parser) (d' : Deferred),
      Parser.scan p d lines = .ok (p', d') →
      (∃ ks, lineKinds lines = some ks ∧ p'.flat.line_order = p.flat.line_order ++ ks)
      ∧ d'.links = d.links ++ linkRecords lines
      ∧ d'.paths = d.paths ++ pathLines lines
      ∧ p'.flat.links = p.flat.links
      ∧ p'.flat.overlap_data = p.flat.overlap_data
      ∧ NameMap.insertSegs p.seg_ids p.flat.segs.length (segRecords lines) = .ok p'.seg_ids
      ∧ p'.flat.segs.length = p.flat.segs.length + (segRecords lines).length := by
  intro lines
  induction lines with
  | nil =>
    intro p d p' d' h
    simp only [Parser.scan, Except.ok.injEq, Prod.mk.injEq] at h
    obtain ⟨hp, hd⟩ := h
    subst hp; subst hd
    exact ⟨⟨[], rfl, by simp⟩, by simp [linkRecords], by simp [pathLines], rfl, rfl,
      by simp [NameMap.insertSegs, segRecords], by simp [segRecords]⟩
  | cons line rest ih =>
    intro p d p' d' h
    unfold Parser.scan at h
    cases hpl : Parser.parse_line p d line with
    | error e => rw [hpl] at h; exact absurd h (by simp)
    | ok pd =>
      obtain ⟨p₁, d₁⟩ := pd
      rw [hpl] at h
      obtain ⟨⟨k, hk, hlo₁⟩, hdlk₁, hdpa₁, hfl₁, hov₁, hsegm₁⟩ := Parser.parse_line_spec hpl
      obtain ⟨⟨ks, hks, hlo₂⟩, hdlk₂, hdpa₂, hfl₂, hov₂, hsegs₂, hlen₂⟩ := ih p₁ d₁ p' d' h
      refine ⟨⟨k :: ks, ?_, ?_⟩, ?_, ?_, ?_, ?_, ?_, ?_⟩
      · simp [lineKinds, hk, hks]
      · rw [hlo₂, hlo₁, List.append_assoc]
        rfl
      · rw [hdlk₂, hdlk₁, List.append_assoc]
        simp only [linkRecords]
        rw [filterMap_cons_toList]
      · rw [hdpa₂, hdpa₁, List.append_assoc]
        simp only [pathLines]
        rw [filterMap_cons_toList]
      · rw [hfl₂, hfl₁]
      · rw [hov₂, hov₁]
      · rw [segRecords, filterMap_cons_toList]
        cases hsr : segRecord? line with
        | none =>
          rw [hsr] at hsegm₁
          obtain ⟨hids, hlen⟩ := hsegm₁
          simp only [Option.toList, List.nil_append]
          rw [← segRecords, ← hids, ← hlen]
          exact hsegs₂
        | some s =>
          rw [hsr] at hsegm₁
          obtain ⟨hins, hlen⟩ := hsegm₁
          simp only [Option.toList, List.singleton_append]
          unfold NameMap.insertSegs
          rw [hins, ← segRecords]
          rw [hlen] at hsegs₂
          exact hsegs₂
      · rw [segRecords, filterMap_cons_toList]
        cases hsr : segRecord? line with
        | none =>
          rw [hsr] at hsegm₁
          obtain ⟨hids, hlen⟩ := hsegm₁
          simp only [Option.toList, List.nil_append]
          rw [← segRecords, ← hlen]
          exact hlen₂
        | some s =>
          rw [hsr] at hsegm₁
          obtain ⟨hins, hlen⟩ := hsegm₁
          simp only [Option.toList, List.singleton_append, List.length_cons]
          rw [← segRecords]
          rw [hlen] at hlen₂
          omega

/-- Helper: everything the deferred-link unwind does. It leaves the name
table, the line order and every non-link pool untouched, resolves the
buffered links in their original relative order against the (final) name
table, and appends exactly the resolved records; moreover both endpoint
lookups of every buffered link succeeded. -/
lemma Parser.addLinks_spec :
    ∀ (links : List GLink) (p p' : Parser),
      Parser.addLinks p links = .ok p' →
      p'.seg_ids = p.seg_ids
      ∧ p'.flat.line_order = p.flat.line_order
      ∧ (∃ rs, resolveLinks p.seg_ids p.flat.overlap_data.length links = .ok rs
          ∧ p'.flat.links = p.flat.links ++ rs)
      ∧ ∀ l ∈ links,
          (∃ v, p.seg_ids.get l.from_seg = .ok v) ∧ (∃ v, p.seg_ids.get l.to_seg = .ok v) := by
  intro links
  induction links with
  | nil =>
    intro p p' h
    simp only [Parser.addLinks, Except.ok.injEq] at h
    subst h
    exact ⟨rfl, rfl, ⟨[], rfl, by simp⟩, by simp⟩
  | cons l rest ih =>
    intro p p' h
    unfold Parser.addLinks at h
    cases hal : Parser.add_link p l with
    | error e => rw [hal] at h; exact absurd h (by simp)
    | ok p₁ =>
      rw [hal] at h
      unfold Parser.add_link at hal
      cases hf : p.seg_ids.get l.from_seg with
      | error e => rw [hf] at hal; exact absurd hal (by simp)
      | ok f =>
        rw [hf] at hal
        cases ht : p.seg_ids.get l.to_seg with
        | error e => rw [ht] at hal; exact absurd hal (by simp)
        | ok t =>
          rw [ht] at hal
          simp only [Except.ok.injEq] at hal
          subst hal
          obtain ⟨hids, hlo, ⟨rs, hres, hlinks⟩, hall⟩ := ih _ p' h
          refine ⟨?_, ?_, ⟨⟨Handle.new f l.from_orient, Handle.new t l.to_orient,
            ⟨p.flat.overlap_data.length,
             p.flat.overlap_data.length + l.overlap.length⟩⟩ :: rs, ?_, ?_⟩, ?_⟩
          · exact hids
          · rw [hlo]
            simp [FlatGFAStore.add_link]
          · unfold resolveLinks
            rw [hf, ht]
            have : ({ p with
                flat := (p.flat.add_link (Handle.new f l.from_orient)
                          (Handle.new t l.to_orient) l.overlap).2 } : Parser).seg_ids
                = p.seg_ids := rfl
            rw [this] at hres
            have hod : ({ p with
                flat := (p.flat.add_link (Handle.new f l.from_orient)
                          (Handle.new t l.to_orient) l.overlap).2 } : Parser).flat.overlap_data.length
                = p.flat.overlap_data.length + l.overlap.length := by
              simp [FlatGFAStore.add_link]
            rw [hod] at hres
            rw [hres]
          · rw [hlinks]
            simp [FlatGFAStore.add_link]
          · intro l' hl'
            rcases List.mem_cons.mp hl' with hl' | hl'
            · subst hl'
              exact ⟨⟨f, hf⟩, ⟨t, ht⟩⟩
            · exact hall l' hl'

/-- Helper: a successful step resolution looked up every step name with
success. -/
lemma Parser.resolveSteps_ok :
    ∀ (st : List (Nat × Bool)) (ids : NameMap) (hs : List Handle),
      Parser.resolveSteps ids st = .ok hs →
      ∀ q ∈ st, ∃ v, ids.get q.1 = .ok v := by
  intro st
  induction st with
  | nil => intro ids hs _ q hq; exact absurd hq (by simp)
  | cons q rest ih =>
    intro ids hs h q' hq'
    obtain ⟨n, dir⟩ := q
    unfold Parser.resolveSteps at h
    cases hg : ids.get n with
    | error e => rw [hg] at h; exact absurd h (by simp)
    | ok id =>
      rw [hg] at h
      cases hr : Parser.resolveSteps ids rest with
      | error e => rw [hr] at h; exact absurd h (by simp)
      | ok hs' =>
        rcases List.mem_cons.mp hq' with hq' | hq'
        · subst hq'
          exact ⟨id, hg⟩
        · exact ih ids hs' hr q' hq'

/-- Helper: everything the deferred-path unwind does. It leaves the link
pool, the line order and the name table untouched, and for every
buffered line the re-parse produced a path, its step text parsed, and
every step name resolved successfully. -/
lemma Parser.addPaths_spec :
    ∀ (plines : List (List Char)) (p p' : Parser),
      Parser.addPaths p plines = .ok p' →
      p'.flat.links = p.flat.links
      ∧ p'.flat.line_order = p.flat.line_order
      ∧ p'.seg_ids = p.seg_ids
      ∧ ∀ pl ∈ plines, ∃ gp st, gfaline.parse_line pl = some (.path gp)
          ∧ parseSteps? gp.steps = some st
          ∧ ∀ q ∈ st, ∃ v, p.seg_ids.get q.1 = .ok v := by
  intro plines
  induction plines with
  | nil =>
    intro p p' h
    simp only [Parser.addPaths, Except.ok.injEq] at h
    subst h
    exact ⟨rfl, rfl, rfl, by simp⟩
  | cons pl rest ih =>
    intro p p' h
    unfold Parser.addPaths at h
    cases hg : gfaline.parse_line pl with
    | none => rw [hg] at h; exact absurd h (by simp)
    | some ln =>
      rw [hg] at h
      cases ln with
      | path gp =>
        simp only at h
        cases hap : Parser.add_path p gp with
        | error e => rw [hap] at h; exact absurd h (by simp)
        | ok p₁ =>
          rw [hap] at h
          unfold Parser.add_path at hap
          cases hst : parseSteps? gp.steps with
          | none => rw [hst] at hap; exact absurd hap (by simp)
          | some st =>
            simp only [hst] at hap
            cases hrs : Parser.resolveSteps p.seg_ids st with
            | error e =>
              simp only [hrs] at hap
              exact absurd hap (by simp)
            | ok handles =>
              simp only [hrs, Except.ok.injEq] at hap
              subst hap
              obtain ⟨hlk, hlo, hids, hall⟩ := ih _ p' h
              have hsame : ({ p with
                  flat := (p.flat.add_path gp.name handles gp.overlaps).2 } : Parser).seg_ids
                  = p.seg_ids := rfl
              refine ⟨?_, ?_, ?_, ?_⟩
              · rw [hlk]
                simp [FlatGFAStore.add_path]
              · rw [hlo]
                simp [FlatGFAStore.add_path]
              · rw [hids]
              · intro pl' hpl'
                rcases List.mem_cons.mp hpl' with hpl' | hpl'
                · subst hpl'
                  exact ⟨gp, st, hg, hst, Parser.resolveSteps_ok st p.seg_ids handles hrs⟩
                · obtain ⟨gp', st', h1, h2, h3⟩ := hall pl' hpl'
                  refine ⟨gp', st', h1, h2, ?_⟩
                  intro q hq
                  obtain ⟨v, hv⟩ := h3 q hq
                  rw [hsame] at hv
                  exact ⟨v, hv⟩
      | header data => exact absurd h (by simp)
      | segment seg => exact absurd h (by simp)
      | link l => exact absurd h (by simp)

/-- Helper: `insertSegs` is `insertPairs` on the declared names zipped
with their consecutively assigned ids. -/
lemma NameMap.insertSegs_eq_insertPairs :
    ∀ (segs : List GSeg) (m : NameMap) (k : Nat),
      NameMap.insertSegs m k segs
        = m.insertPairs ((segs.map GSeg.name).zip (List.range' k segs.length 1)) := by
  intro segs
  induction segs with
  | nil => intro m k; rfl
  | cons s rest ih =>
    intro m k
    rw [List.map_cons, List.length_cons, List.range'_succ, List.zip_cons_cons]
    unfold NameMap.insertSegs NameMap.insertPairs
    cases m.insert s.name k with
    | error e => rfl
    | ok m' => exact ih m' (k + 1)

/-- Helper: a successful whole parse registers the declared segment names
against consecutive ids from 0, and its link pool is exactly the
deferred raw links resolved in original order against that final table,
with overlap bytes from offset 0. -/
lemma Parser.parse_links_core (lines : List (List Char)) (store : FlatGFAStore)
    (hp : Parser.parse lines = .ok store) :
    ∃ nm, NameMap.insertSegs NameMap.default 0 (segRecords lines) = .ok nm
      ∧ resolveLinks nm 0 (linkRecords lines) = .ok store.links := by
  unfold Parser.parse at hp
  cases hscan : Parser.scan Parser.default Deferred.default lines with
  | error e => rw [hscan] at hp; exact absurd hp (by simp)
  | ok pd =>
    obtain ⟨p, d⟩ := pd
    simp only [hscan] at hp
    obtain ⟨_, hdlk, hdpa, hfl, hov, hsegs, _⟩ :=
      Parser.scan_spec lines Parser.default Deferred.default p d hscan
    unfold Parser.finish at hp
    cases haddl : Parser.addLinks p d.links with
    | error e => rw [haddl] at hp; exact absurd hp (by simp)
    | ok p₁ =>
      simp only [haddl] at hp
      cases haddp : Parser.addPaths p₁ d.paths with
      | error e => rw [haddp] at hp; exact absurd hp (by simp)
      | ok p₂ =>
        simp only [haddp, Except.ok.injEq] at hp
        subst hp
        obtain ⟨hids₁, hlo₁, ⟨rs, hres, hlinks₁⟩, _⟩ := Parser.addLinks_spec d.links p p₁ haddl
        obtain ⟨hlk₂, hlo₂, hids₂, _⟩ := Parser.addPaths_spec d.paths p₁ p₂ haddp
        refine ⟨p.seg_ids, hsegs, ?_⟩
        have hdlk' : d.links = linkRecords lines := by
          rw [hdlk]
          rfl
        have hodl : p.flat.overlap_data.length = 0 := by
          rw [hov]
          rfl
        rw [hdlk', hodl] at hres
        have hpl : p.flat.links = [] := by
          rw [hfl]
          rfl
        rw [hpl, List.nil_append] at hlinks₁
        rw [hlk₂, hlinks₁]
        exact hres

/-- C1: for every input whose parse succeeds (in particular every input
where a link line precedes the segment lines declaring its endpoints),
the deferred links are resolved after the whole input is consumed, in
their original relative order, each endpoint resolved through the final
name table to exactly the id assigned to the named segment; and the
resulting link pool depends only on the segment-line subsequence and the
link-line subsequence, so it is the same as if the segments had been
declared before the links. -/
theorem parse_resolves_links (lines : List (List Char)) (nm : NameMap) (store : FlatGFAStore)
    (hnm : NameMap.insertSegs NameMap.default 0 (segRecords lines) = .ok nm)
    (hp : Parser.parse lines = .ok store) :
    resolveLinks nm 0 (linkRecords lines) = .ok store.links
    ∧ ∀ lines₂ store₂, Parser.parse lines₂ = .ok store₂ →
        segRecords lines₂ = segRecords lines →
        linkRecords lines₂ = linkRecords lines →
        store₂.links = store.links := by
  obtain ⟨nm₁, hnm₁, hres₁⟩ := Parser.parse_links_core lines store hp
  have hnmeq : nm₁ = nm := Except.ok.inj (hnm₁.symm.trans hnm)
  subst hnmeq
  refine ⟨hres₁, ?_⟩
  intro lines₂ store₂ hp₂ hseg hlink
  obtain ⟨nm₂, hnm₂, hres₂⟩ := Parser.parse_links_core lines₂ store₂ hp₂
  rw [hseg] at hnm₂
  have hnmeq₂ : nm₂ = nm₁ := Except.ok.inj (hnm₂.symm.trans hnm₁)
  subst hnmeq₂
  rw [hlink] at hres₂
  exact Except.ok.inj (hres₂.symm.trans hres₁)

/-- C5: after a successful parse, the line-order table holds exactly one
entry per input line, in original input order, whose kind matches that
line's record type — Path and Link lines get their entry at the moment
the line is read even though their records are added only after the
scan. -/
theorem parse_line_order (lines : List (List Char)) (store : FlatGFAStore)
    (h : Parser.parse lines = .ok store) :
    lineKinds lines = some store.line_order := by
  unfold Parser.parse at h
  cases hscan : Parser.scan Parser.default Deferred.default lines with
  | error e => rw [hscan] at h; exact absurd h (by simp)
  | ok pd =>
    obtain ⟨p, d⟩ := pd
    simp only [hscan] at h
    obtain ⟨⟨ks, hks, hlo⟩, _, _, _, _, _, _⟩ :=
      Parser.scan_spec lines Parser.default Deferred.default p d hscan
    unfold Parser.finish at h
    cases haddl : Parser.addLinks p d.links with
    | error e => rw [haddl] at h; exact absurd h (by simp)
    | ok p₁ =>
      simp only [haddl] at h
      cases haddp : Parser.addPaths p₁ d.paths with
      | error e => rw [haddp] at h; exact absurd h (by simp)
      | ok p₂ =>
        simp only [haddp, Except.ok.injEq] at h
        subst h
        obtain ⟨_, hlo₁, _, _⟩ := Parser.addLinks_spec d.links p p₁ haddl
        obtain ⟨_, hlo₂, _, _⟩ := Parser.addPaths_spec d.paths p₁ p₂ haddp
        rw [hks]
        congr 1
        rw [hlo₂, hlo₁, hlo]
        rfl

/-- Success test for a parse result. -/
def parseOk (r : Except Err FlatGFAStore) : Bool :=
  match r with
  | .ok _ => true
  | .error _ => false

/-- A raw link referencing a name outside the given declared-name list. -/
def linkBad (decl : List Nat) (gl : GLink) : Bool :=
  !(decl.contains gl.from_seg) || !(decl.contains gl.to_seg)

/-- A buffered path line that parses and contains a step whose name is
outside the given declared-name list. -/
def pathBad (decl : List Nat) (pl : List Char) : Bool :=
  match gfaline.parse_line pl with
  | some (.path gp) =>
    match parseSteps? gp.steps with
    | some st => st.any (fun q => !(decl.contains q.1))
    | none => false
  | _ => false

/-- C3: a name never passed to `insert` is never answered by
`NameMap.get` — the lookup fails (panics) rather than producing id 0 or
any default; and an input containing a Link line or a Path line
referencing a segment name never declared by any Segment line cannot
parse successfully — the parse aborts. -/
theorem undeclared_name_fails (lines : List (List Char)) :
    (∀ (ps : List (Nat × Nat)) (m : NameMap) (n : Nat),
        NameMap.insertPairs NameMap.default ps = .ok m →
        n ∉ ps.map Prod.fst → ∃ e, m.get n = .error e)
    ∧ (((linkRecords lines).any (linkBad (declaredNames lines))
          || (pathLines lines).any (pathBad (declaredNames lines))) = true →
        parseOk (Parser.parse lines) = false) := by
  refine ⟨fun ps m n h1 h2 => NameMap.get_fails_of_not_inserted h1 h2, ?_⟩
  intro hbad
  cases hp : Parser.parse lines with
  | error e => rfl
  | ok store =>
    exfalso
    unfold Parser.parse at hp
    cases hscan : Parser.scan Parser.default Deferred.default lines with
    | error e => rw [hscan] at hp; exact absurd hp (by simp)
    | ok pd =>
      obtain ⟨p, d⟩ := pd
      simp only [hscan] at hp
      obtain ⟨_, hdlk, hdpa, _, _, hsegs, _⟩ :=
        Parser.scan_spec lines Parser.default Deferred.default p d hscan
      have hdlk' : d.links = linkRecords lines := by rw [hdlk]; rfl
      have hdpa' : d.paths = pathLines lines := by rw [hdpa]; rfl
      have hsegs' : NameMap.insertSegs NameMap.default 0 (segRecords lines) = .ok p.seg_ids :=
        hsegs
      rw [NameMap.insertSegs_eq_insertPairs] at hsegs'
      have hcov : Covers p.seg_ids (declaredNames lines) := by
        have hc0 : Covers NameMap.default [] := by
          constructor
          · intro k hk1 hk2
            simp only [NameMap.default] at hk2
            omega
          · intro q hq
            simp [NameMap.default] at hq
        have := NameMap.covers_insertPairs _ NameMap.default p.seg_ids [] hc0 hsegs'
        rw [List.nil_append] at this
        have hfst : (((segRecords lines).map GSeg.name).zip
            (List.range' 0 (segRecords lines).length 1)).map Prod.fst
            = (segRecords lines).map GSeg.name :=
          List.map_fst_zip _ _ (by simp [List.length_range'])
        rw [hfst] at this
        exact this
      unfold Parser.finish at hp
      cases haddl : Parser.addLinks p d.links with
      | error e => rw [haddl] at hp; exact absurd hp (by simp)
      | ok p₁ =>
        simp only [haddl] at hp
        cases haddp : Parser.addPaths p₁ d.paths with
        | error e => rw [haddp] at hp; exact absurd hp (by simp)
        | ok p₂ =>
          obtain ⟨hids₁, _, _, hallk⟩ := Parser.addLinks_spec d.links p p₁ haddl
          obtain ⟨_, _, _, hallp⟩ := Parser.addPaths_spec d.paths p₁ p₂ haddp
          rcases Bool.or_eq_true_iff.mp hbad with hb | hb
          · obtain ⟨gl, hgl, hglb⟩ := List.any_eq_true.mp hb
            have hmem : gl ∈ d.links := by rw [hdlk']; exact hgl
            obtain ⟨⟨vf, hvf⟩, ⟨vt, hvt⟩⟩ := hallk gl hmem
            have hmf : gl.from_seg ∈ declaredNames lines := NameMap.covers_get_ok hcov hvf
            have hmt : gl.to_seg ∈ declaredNames lines := NameMap.covers_get_ok hcov hvt
            simp only [linkBad, Bool.or_eq_true, Bool.not_eq_true'] at hglb
            rcases hglb with hglb | hglb
            · simp at hglb
              exact hglb hmf
            · simp at hglb
              exact hglb hmt
          · obtain ⟨pl, hpl, hplb⟩ := List.any_eq_true.mp hb
            have hmem : pl ∈ d.paths := by rw [hdpa']; exact hpl
            obtain ⟨gp, st, hgp, hst, hallst⟩ := hallp pl hmem
            unfold pathBad at hplb
            rw [hgp] at hplb
            simp only at hplb
            rw [hst] at hplb
            simp only at hplb
            obtain ⟨q, hq, hqb⟩ := List.any_eq_true.mp hplb
            obtain ⟨v, hv⟩ := hallst q hq
            rw [hids₁] at hv
            have hmq : q.1 ∈ declaredNames lines := NameMap.covers_get_ok hcov hv
            simp only [Bool.not_eq_true'] at hqb
            simp at hqb
            exact hqb hmq

/-- C9: `parse_line` reads the first byte of the line with no length
guard, so an empty line faults with the out-of-bounds panic — a
different failure from the malformed-line unwrap — and so does a whole
parse whose input contains an empty line. -/
theorem empty_line_faults :
    (∀ (p : Parser) (d : Deferred), Parser.parse_line p d [] = .error .indexOutOfBounds)
    ∧ Parser.parse [[]] = .error .indexOutOfBounds
    ∧ Err.indexOutOfBounds ≠ Err.unwrapFailed :=
  ⟨fun _ _ => rfl, rfl, by decide⟩

/-- Concrete input of the spec's forward-reference example: a link naming
segments 2 and 1 before either is declared. -/
def c1Input : List (List Char) :=
  ["L\t2\t+\t1\t+\t*".data, "S\t2\tACGT".data, "S\t1\tGGGG".data]

/-- The same records with the segments declared before the link. -/
def c1Reordered : List (List Char) :=
  ["S\t2\tACGT".data, "S\t1\tGGGG".data, "L\t2\t+\t1\t+\t*".data]

/-- The flat store produced by parsing `c1Input`. -/
def c1Store : FlatGFAStore :=
  match Parser.parse c1Input with
  | .ok s => s
  | .error _ => FlatGFAStore.default

/-- The flat store produced by parsing `c1Reordered`. -/
def c1StoreReordered : FlatGFAStore :=
  match Parser.parse c1Reordered with
  | .ok s => s
  | .error _ => FlatGFAStore.default

/-- The name table built from the segment lines of `c1Input`. -/
def c1Nm : NameMap :=
  match NameMap.insertSegs NameMap.default 0 (segRecords c1Input) with
  | .ok m => m
  | .error _ => NameMap.default

/-- C1 witness: on the spec's example the resolved links match the link
pool the parse produced, and reordering the segments before the link
leaves the link pool unchanged. -/
theorem parse_resolves_links_witness :
    resolveLinks c1Nm 0 (linkRecords c1Input) = .ok c1Store.links
    ∧ c1StoreReordered.links = c1Store.links := by
  have hnm : NameMap.insertSegs NameMap.default 0 (segRecords c1Input) = .ok c1Nm := by rfl
  have hp : Parser.parse c1Input = .ok c1Store := by rfl
  have hp₂ : Parser.parse c1Reordered = .ok c1StoreReordered := by rfl
  have t := parse_resolves_links c1Input c1Nm c1Store hnm hp
  exact ⟨t.1, t.2 c1Reordered c1StoreReordered hp₂ (by rfl) (by rfl)⟩

/-- Concrete interleaved input for the line-order property. -/
def c5Input : List (List Char) :=
  ["H\tVN:Z:1.0".data, "S\t1\tAAA".data, "P\tp\t1+\t*".data,
   "L\t1\t+\t1\t-\t*".data, "S\t2\tC".data]

/-- The flat store produced by parsing `c5Input`. -/
def c5Store : FlatGFAStore :=
  match Parser.parse c5Input with
  | .ok s => s
  | .error _ => FlatGFAStore.default

/-- C5 witness: the interleaving Header, Segment, Path, Link, Segment is
reproduced exactly by the line-order table. -/
theorem parse_line_order_witness :
    lineKinds c5Input = some [.header, .segment, .path, .link, .segment] := by
  have hp : Parser.parse c5Input = .ok c5Store := by rfl
  have t := parse_line_order c5Input c5Store hp
  exact t.trans (by rfl)

/-- Concrete input whose link references the undeclared segment name 2. -/
def c3Input : List (List Char) :=
  ["S\t1\tAAA".data, "L\t1\t+\t2\t-\t*".data]

/-- C3 witness: the parse of an input with an undeclared link endpoint
fails. -/
theorem undeclared_name_fails_witness :
    parseOk (Parser.parse c3Input) = false :=
  (undeclared_name_fails c3Input).2 (by rfl)

/-- Modelled from the spec: the flat view the binding layer reads — the
segment pool and the sequence-byte pool (the `flatgfa` crate's `FlatGFA`
view, restricted to the pools the binding uses; the same view is
produced from a heap store or a mapped file). -/
structure FlatGFA where
  segs : List SegRec
  seq_data : List Char
deriving DecidableEq, Repr

/-- Modelled from the spec: `FlatGFA::get_seq` — the sequence bytes
referenced by a segment record's sequence span. -/
def FlatGFA.get_seq (v : FlatGFA) (seg : SegRec) : Option (List Char) :=
  SlicePool.get_span v.seq_data seg.seq

/-- The binding's segment-list object (`lib.rs` `SegmentList`): a
reference to a flat view. -/
structure SegmentList where
  gfa : FlatGFA
deriving DecidableEq, Repr

/-- The binding's segment object (`lib.rs` `PySegment`): a view reference
plus the raw index it was created with. -/
structure PySegment where
  gfa : FlatGFA
  id : Nat
deriving DecidableEq, Repr

/-- From `lib.rs` `SegmentList::__getitem__`: builds a `PySegment`
holding the raw index, with no bounds check — total, succeeding for
every index. -/
def SegmentList.getitem (sl : SegmentList) (idx : Nat) : PySegment :=
  ⟨sl.gfa, idx⟩

/-- From `lib.rs` `SegmentList::__len__`: the segment count of the
view. -/
def SegmentList.length (sl : SegmentList) : Nat := sl.gfa.segs.length

/-- From `lib.rs` `PySegment::sequence`: indexes the segment pool with
the stored raw index (`view.segs[self.id as usize]`, which panics out of
bounds) and then copies the sequence bytes out. -/
def PySegment.sequence (s : PySegment) : Option (List Char) :=
  match s.gfa.segs[s.id]? with
  | none => none
  | some seg => s.gfa.get_seq seg

/-- From `lib.rs` `PySegment::name` getter: indexes the segment pool with
the stored raw index and projects the external name. -/
def PySegment.name (s : PySegment) : Option Nat :=
  match s.gfa.segs[s.id]? with
  | none => none
  | some seg => some seg.name

/-- C10: `__getitem__` performs no bounds check and succeeds for every
index, including indices at or beyond the segment count, returning a
`Segment` object holding the raw index; an out-of-range index only
faults later, when that object's `sequence` or `name` accessor indexes
the segment pool. -/
theorem segment_list_getitem (sl : SegmentList) (idx : Nat) :
    SegmentList.getitem sl idx = ⟨sl.gfa, idx⟩
    ∧ (SegmentList.length sl ≤ idx →
        (SegmentList.getitem sl idx).sequence = none
        ∧ (SegmentList.getitem sl idx).name = none) := by
  refine ⟨rfl, ?_⟩
  intro h
  have hnone : sl.gfa.segs[idx]? = none := by
    rw [List.getElem?_eq_none_iff]
    exact h
  constructor
  · simp [PySegment.sequence, SegmentList.getitem, hnone]
  · simp [PySegment.name, SegmentList.getitem, hnone]

/-- C10 witness: indexing an empty segment list at 0 still succeeds, and
the resulting object's accessors fault. -/
theorem segment_list_getitem_witness :
    SegmentList.getitem ⟨⟨[], []⟩⟩ 0 = ⟨⟨[], []⟩, 0⟩
    ∧ (SegmentList.getitem ⟨⟨[], []⟩⟩ 0).sequence = none :=
  have t := segment_list_getitem ⟨⟨[], []⟩⟩ 0
  ⟨t.1, (t.2 (by decide)).1⟩

end Pollen
